import Mathlib

/-!
Shallow embedding of `src/minesweeper.py` (the `Sentence` and `MinesweeperAI`
classes) together with theorems checking the natural-language specification
against it.  Python sets of board cells are modelled as `Finset (ℤ × ℤ)`,
Python integers as `ℤ`, and the knowledge base's list of sentences as a
`List Sentence`.  The two Python loops of `add_knowledge` that iterate over a
list while mutating it are modelled by index-driven loops; the subset-inference
loop, which iterates over a list that grows while it runs, additionally takes a
fuel argument and reports whether it ran to completion.
-/

/-- A board cell, a pair of integer coordinates as in the Python tuples. -/
abbrev Cell : Type := ℤ × ℤ

/-- A concrete linear order on cells, used to enumerate a finite set of cells
as a duplicate-free list (Python iterates sets in an arbitrary but definite
order; the knowledge-base operations below commute, so the order is
immaterial). -/
def cellLe (a b : Cell) : Prop :=
  a.1 < b.1 ∨ (a.1 = b.1 ∧ a.2 ≤ b.2)

instance : DecidableRel cellLe := fun a b =>
  inferInstanceAs (Decidable (a.1 < b.1 ∨ (a.1 = b.1 ∧ a.2 ≤ b.2)))

instance : IsTrans Cell cellLe :=
  ⟨by intro a b c hab hbc; unfold cellLe at *; omega⟩

instance : IsAntisymm Cell cellLe := by
  refine ⟨fun a b hab hba => ?_⟩
  unfold cellLe at *
  have h1 : a.1 = b.1 := by omega
  have h2 : a.2 = b.2 := by omega
  exact Prod.ext h1 h2

instance : IsTotal Cell cellLe :=
  ⟨by intro a b; unfold cellLe; omega⟩

/-- The cells of a finite set, as a duplicate-free list in `cellLe` order
(insertion sort is used so that the enumeration evaluates by kernel
reduction). -/
def sortedCells (m : Finset Cell) : List Cell :=
  Quotient.liftOn m.val (List.insertionSort cellLe) (fun a b h =>
    List.eq_of_perm_of_sorted
      ((List.perm_insertionSort cellLe a).trans
        (h.trans (List.perm_insertionSort cellLe b).symm))
      (List.sorted_insertionSort cellLe a) (List.sorted_insertionSort cellLe b))

/-- Embedding of the Python class `Sentence`: a set of cells together with the
number of mines among them.  Python `__eq__` compares both fields, which is
structural equality. -/
structure Sentence where
  cells : Finset Cell
  count : ℤ
deriving Inhabited

instance : DecidableEq Sentence := fun a b =>
  decidable_of_iff (a.cells = b.cells ∧ a.count = b.count)
    (by cases a; cases b; simp)

/-- Embedding of `Sentence.known_mines`. -/
def Sentence.known_mines (s : Sentence) : Finset Cell :=
  if (s.cells.card : ℤ) = s.count ∧ s.count ≠ 0 then s.cells else ∅

/-- Embedding of `Sentence.known_safes`. -/
def Sentence.known_safes (s : Sentence) : Finset Cell :=
  if s.count = 0 then s.cells else ∅

/-- Embedding of `Sentence.mark_mine`: if the cell is present, remove it and
decrement the count. -/
def Sentence.mark_mine (s : Sentence) (c : Cell) : Sentence :=
  if c ∈ s.cells then ⟨s.cells.erase c, s.count - 1⟩ else s

/-- Embedding of `Sentence.mark_safe`: if the cell is present, remove it and
leave the count unchanged. -/
def Sentence.mark_safe (s : Sentence) (c : Cell) : Sentence :=
  if c ∈ s.cells then ⟨s.cells.erase c, s.count⟩ else s

/-- Embedding of the state of the Python class `MinesweeperAI`. -/
structure MinesweeperAI where
  height : ℕ
  width : ℕ
  moves_made : Finset Cell
  mines : Finset Cell
  safes : Finset Cell
  knowledge : List Sentence
deriving Inhabited

instance : DecidableEq MinesweeperAI := fun a b =>
  decidable_of_iff
    (a.height = b.height ∧ a.width = b.width ∧ a.moves_made = b.moves_made ∧
      a.mines = b.mines ∧ a.safes = b.safes ∧ a.knowledge = b.knowledge)
    (by cases a; cases b; simp)

/-- Embedding of `MinesweeperAI.__init__`. -/
def MinesweeperAI.init (h w : ℕ) : MinesweeperAI :=
  ⟨h, w, ∅, ∅, ∅, []⟩

/-- Embedding of `MinesweeperAI.mark_mine`: add the cell to `mines` and update
every sentence of the knowledge base. -/
def MinesweeperAI.mark_mine (st : MinesweeperAI) (c : Cell) : MinesweeperAI :=
  { st with
    mines := insert c st.mines
    knowledge := st.knowledge.map (fun s => s.mark_mine c) }

/-- Embedding of `MinesweeperAI.mark_safe`: add the cell to `safes` and update
every sentence of the knowledge base. -/
def MinesweeperAI.mark_safe (st : MinesweeperAI) (c : Cell) : MinesweeperAI :=
  { st with
    safes := insert c st.safes
    knowledge := st.knowledge.map (fun s => s.mark_safe c) }

/-- The in-bounds test `0 <= i < self.height and 0 <= j < self.width` used by
the neighbour loop of `add_knowledge`. -/
def MinesweeperAI.inBounds (st : MinesweeperAI) (c : Cell) : Bool :=
  decide (0 ≤ c.1) && decide (c.1 < (st.height : ℤ)) &&
    decide (0 ≤ c.2) && decide (c.2 < (st.width : ℤ))

/-- The nine candidate cells `(cell[0]-1..cell[0]+1) × (cell[1]-1..cell[1]+1)`
enumerated by the neighbour loop of `add_knowledge` (the cell itself included;
it is skipped inside the loop body, as in the Python code). -/
def nbhdCandidates (cell : Cell) : List Cell :=
  (List.range 3).flatMap (fun di =>
    (List.range 3).map (fun dj => (cell.1 - 1 + (di : ℤ), cell.2 - 1 + (dj : ℤ))))

/-- One iteration of the neighbour loop of `add_knowledge`: skip the observed
cell, ignore out-of-bounds candidates, decrement the working count for a known
mine, skip a known safe, and otherwise add the candidate to the neighbour set. -/
def MinesweeperAI.buildStep (st : MinesweeperAI) (cell : Cell)
    (acc : Finset Cell × ℤ) (c : Cell) : Finset Cell × ℤ :=
  if c = cell then acc
  else if st.inBounds c then
    if c ∈ st.mines then (acc.1, acc.2 - 1)
    else if c ∈ st.safes then acc
    else (insert c acc.1, acc.2)
  else acc

/-- The sentence built by step 3 of `add_knowledge` from the observed cell and
its reported neighbour mine count. -/
def MinesweeperAI.newSentence (st : MinesweeperAI) (cell : Cell) (count : ℤ) :
    Sentence :=
  let r := (nbhdCandidates cell).foldl (st.buildStep cell) (∅, count)
  ⟨r.1, r.2⟩

/-- `self.mark_mine(cell)` applied to each cell of a list (the Python loop
`for cell in mines.copy()`). -/
def MinesweeperAI.markAllMines (st : MinesweeperAI) (l : List Cell) :
    MinesweeperAI :=
  l.foldl MinesweeperAI.mark_mine st

/-- `self.mark_safe(cell)` applied to each cell of a list (the Python loop
`for cell in safes.copy()`). -/
def MinesweeperAI.markAllSafes (st : MinesweeperAI) (l : List Cell) :
    MinesweeperAI :=
  l.foldl MinesweeperAI.mark_safe st

/-- The body of the extraction loop at one sentence: snapshot its
`known_mines` and `known_safes` and, if the first is non-empty, mark all its
cells as mines; otherwise, if the second is non-empty, mark them safe (the
Python `if mines: ... elif safes: ...`). -/
def extractStep (st : MinesweeperAI) (s : Sentence) : MinesweeperAI :=
  if s.known_mines ≠ ∅ then st.markAllMines (sortedCells s.known_mines)
  else if s.known_safes ≠ ∅ then st.markAllSafes (sortedCells s.known_safes)
  else st

/-- The conclusion-extraction loop of `add_knowledge` (step 4): one pass over
the knowledge list by index, applying `extractStep` at each index.  The mark
operations preserve the length of the list, so a fuel equal to the list
length drives the loop to its end; the index test mirrors the Python
iterator's bound check. -/
def MinesweeperAI.extractLoop : ℕ → MinesweeperAI → ℕ → MinesweeperAI
  | 0, st, _ => st
  | Nat.succ f, st, i =>
    if h : i < st.knowledge.length then
      MinesweeperAI.extractLoop f (extractStep st (st.knowledge.get ⟨i, h⟩)) (i + 1)
    else st

/-- The full extraction pass of `add_knowledge`, starting at index 0. -/
def MinesweeperAI.extractAll (st : MinesweeperAI) : MinesweeperAI :=
  MinesweeperAI.extractLoop st.knowledge.length st 0

/-- Embedding of the prune step of `add_knowledge`: keep exactly the sentences
that differ from `Sentence(set(), 0)` under structural equality. -/
def pruneKnowledge (l : List Sentence) : List Sentence :=
  l.filter (fun s => decide (s ≠ ⟨∅, 0⟩))

/-- The sentence the subset rule derives from a pair: the cell difference and
the count difference. -/
def inferredSentence (a b : Sentence) : Sentence :=
  ⟨b.cells \ a.cells, b.count - a.count⟩

/-- The body of the subset-inference loops at one ordered pair `(a, b)`: when
`a.cells` is a strict subset of `b.cells`, append the inferred sentence unless
a structurally equal sentence is already in the list. -/
def subsetNext (l : List Sentence) (a b : Sentence) : List Sentence :=
  if a.cells ⊂ b.cells then
    if inferredSentence a b ∈ l then l else l ++ [inferredSentence a b]
  else l

/-- Embedding of the subset-inference loops of `add_knowledge` (step 5.1): two
nested index loops over a list that grows while being iterated, exactly as
Python's list iterators behave under `append`.  The loop need not terminate in
general, so it takes fuel; the boolean reports whether the loop ran to
completion (outer index past the end) rather than running out of fuel. -/
def subsetLoop : ℕ → List Sentence → ℕ → ℕ → List Sentence × Bool
  | 0, l, _, _ => (l, false)
  | Nat.succ f, l, i, j =>
    if hi : i < l.length then
      if hj : j < l.length then
        subsetLoop f (subsetNext l (l.get ⟨i, hi⟩) (l.get ⟨j, hj⟩)) i (j + 1)
      else subsetLoop f l (i + 1) 0
    else (l, true)

/-- Step 1 of `add_knowledge`: record the move. -/
def MinesweeperAI.recordMove (st : MinesweeperAI) (cell : Cell) : MinesweeperAI :=
  { st with moves_made := insert cell st.moves_made }

/-- Step 3 of `add_knowledge`: append the freshly built observation sentence
(no value-equality check is performed by the code). -/
def MinesweeperAI.appendNew (st : MinesweeperAI) (cell : Cell) (count : ℤ) :
    MinesweeperAI :=
  { st with knowledge := st.knowledge ++ [st.newSentence cell count] }

/-- The prune step of `add_knowledge`, on the state. -/
def MinesweeperAI.pruneStep (st : MinesweeperAI) : MinesweeperAI :=
  { st with knowledge := pruneKnowledge st.knowledge }

/-- The subset-inference step of `add_knowledge`, on the state. -/
def MinesweeperAI.runSubset (fuel : ℕ) (st : MinesweeperAI) : MinesweeperAI :=
  { st with knowledge := (subsetLoop fuel st.knowledge 0 0).1 }

/-- Embedding of `MinesweeperAI.add_knowledge`, the whole pipeline: record the
move, mark the cell safe, build and append the observation sentence, run the
extraction pass, prune, and run the subset-inference loop (with the given
fuel). -/
def MinesweeperAI.add_knowledge (st : MinesweeperAI) (fuel : ℕ) (cell : Cell)
    (count : ℤ) : MinesweeperAI :=
  MinesweeperAI.runSubset fuel
    (MinesweeperAI.pruneStep
      (MinesweeperAI.extractAll
        (MinesweeperAI.appendNew
          (MinesweeperAI.mark_safe (st.recordMove cell) cell) cell count)))

/-- The list of cells `make_random_move` collects: all grid cells that are
neither in `moves_made` nor in `mines`, in the row-major order of the Python
loops. -/
def MinesweeperAI.eligibleMoves (st : MinesweeperAI) : List Cell :=
  (List.range st.height).flatMap (fun i =>
    (List.range st.width).filterMap (fun (j : ℕ) =>
      if ((i : ℤ), (j : ℤ)) ∉ st.moves_made ∧ ((i : ℤ), (j : ℤ)) ∉ st.mines
      then some (((i : ℤ), (j : ℤ)) : Cell) else none))

/-- Embedding of `MinesweeperAI.make_random_move`: `None` when the eligible set
is empty, otherwise one element of it.  Python's `set.pop()` removes an
arbitrary (implementation-chosen, not random) element of a local set; it is
modelled here by taking the head of the eligible list. -/
def MinesweeperAI.make_random_move (st : MinesweeperAI) : Option Cell :=
  st.eligibleMoves.head?

/-- The state reached from a fresh 2×2 board by `add_knowledge((0,0), 1)`
followed by marking safe all three cells of the resulting sentence. -/
def cexC1 : MinesweeperAI :=
  ((((MinesweeperAI.init 2 2).add_knowledge 20 ((0 : ℤ), (0 : ℤ)) 1).mark_safe
      ((0 : ℤ), (1 : ℤ))).mark_safe ((1 : ℤ), (0 : ℤ))).mark_safe ((1 : ℤ), (1 : ℤ))

/-- A concrete two-cell count-1 sentence used by the C1 witness. -/
def sC1w : Sentence := ⟨{((0 : ℤ), (0 : ℤ)), ((0 : ℤ), (1 : ℤ))}, 1⟩

/-- The state reached from a fresh 2×2 board by `add_knowledge((0,0), 2)` then
`add_knowledge((0,1), 0)`; its knowledge base is `[⟨∅, -2⟩]`. -/
def cexC9 : MinesweeperAI :=
  ((MinesweeperAI.init 2 2).add_knowledge 20 ((0 : ℤ), (0 : ℤ)) 2).add_knowledge 20
    ((0 : ℤ), (1 : ℤ)) 0

/-- The sentence `{(1,0),(1,1)} = 1`, produced twice by the C4 run. -/
def dupC4 : Sentence := ⟨{((1 : ℤ), (0 : ℤ)), ((1 : ℤ), (1 : ℤ))}, 1⟩

/-- The state reached from a fresh 2×2 board by `add_knowledge((0,0), 1)` then
`add_knowledge((0,1), 1)`. -/
def cexC4 : MinesweeperAI :=
  ((MinesweeperAI.init 2 2).add_knowledge 20 ((0 : ℤ), (0 : ℤ)) 1).add_knowledge 20
    ((0 : ℤ), (1 : ℤ)) 1

/-- The state reached by `mark_safe((0,0))` then `mark_mine((0,0))` on a fresh
2×2 board. -/
def cexC6 : MinesweeperAI :=
  ((MinesweeperAI.init 2 2).mark_safe ((0 : ℤ), (0 : ℤ))).mark_mine
    ((0 : ℤ), (0 : ℤ))

/-- The state reached from a fresh 3×3 board by `add_knowledge((0,0), 1)` then
`add_knowledge((2,1), 0)`: the second observation marks `(1,0)` and `(1,1)`
safe, shrinking the first sentence to `{(0,1)} = 1` only after that sentence
was already inspected. -/
def cexC5 : MinesweeperAI :=
  ((MinesweeperAI.init 3 3).add_knowledge 20 ((0 : ℤ), (0 : ℤ)) 1).add_knowledge 20
    ((2 : ℤ), (1 : ℤ)) 0

/-- A one-sentence knowledge base whose sentence concludes a mine. -/
def stC5w : MinesweeperAI := ⟨3, 3, ∅, ∅, ∅, [⟨{((0 : ℤ), (1 : ℤ))}, 1⟩]⟩

/-- A mine assignment `f` satisfies a sentence when exactly `count` of its
cells are mines under `f`. -/
def satisfiedBy (f : Cell → Bool) (s : Sentence) : Prop :=
  ((s.cells.filter (fun c => f c = true)).card : ℤ) = s.count

instance (f : Cell → Bool) (s : Sentence) : Decidable (satisfiedBy f s) :=
  decidable_of_iff (((s.cells.filter (fun c => f c = true)).card : ℤ) = s.count)
    Iff.rfl

/-- The assignment making exactly `(0,0)` a mine, for the C3 witness. -/
def fC3 : Cell → Bool := fun c => decide (c = ((0 : ℤ), (0 : ℤ)))

/-- Sentence `{(0,0)} = 1`, for the C3 witness. -/
def aC3 : Sentence := ⟨{((0 : ℤ), (0 : ℤ))}, 1⟩

/-- Sentence `{(0,0),(0,1)} = 1`, for the C3 witness. -/
def bC3 : Sentence := ⟨{((0 : ℤ), (0 : ℤ)), ((0 : ℤ), (1 : ℤ))}, 1⟩

/-- The list produced by the subset loop on `[aC3, bC3]`. -/
def lrC3 : List Sentence := [aC3, bC3, ⟨{((0 : ℤ), (1 : ℤ))}, 0⟩]

/-- The knowledge-base invariant: `mines` and `safes` are disjoint, and no
sentence of the knowledge base mentions a cell already resolved as mine or
safe (marks are propagated into every sentence immediately, and sentences are
built from unresolved cells only). -/
def KBInv (st : MinesweeperAI) : Prop :=
  st.mines ∩ st.safes = ∅ ∧
    ∀ s ∈ st.knowledge, ∀ c ∈ s.cells, c ∉ st.mines ∧ c ∉ st.safes

/-- The states reachable by mutation calls that respect the caller contract:
`add_knowledge` is never invoked on a cell already known to be a mine,
`mark_mine` never on a cell in `safes`, `mark_safe` never on a cell in
`mines`. -/
inductive ReachableAI : MinesweeperAI → Prop where
  | init (h w : ℕ) : ReachableAI (MinesweeperAI.init h w)
  | add (st : MinesweeperAI) (fuel : ℕ) (cell : Cell) (count : ℤ) :
      ReachableAI st → cell ∉ st.mines →
      ReachableAI (st.add_knowledge fuel cell count)
  | mine (st : MinesweeperAI) (c : Cell) :
      ReachableAI st → c ∉ st.safes → ReachableAI (st.mark_mine c)
  | safe (st : MinesweeperAI) (c : Cell) :
      ReachableAI st → c ∉ st.mines → ReachableAI (st.mark_safe c)

theorem mem_sortedCells (m : Finset Cell) (c : Cell) :
    c ∈ sortedCells m ↔ c ∈ m := by
  rcases m with ⟨v, hv⟩
  induction v using Quotient.inductionOn with
  | h l =>
    show c ∈ List.insertionSort cellLe l ↔ _
    rw [(List.perm_insertionSort cellLe l).mem_iff]
    rfl

theorem nodup_sortedCells (m : Finset Cell) : (sortedCells m).Nodup := by
  rcases m with ⟨v, hv⟩
  induction v using Quotient.inductionOn with
  | h l =>
    exact (List.perm_insertionSort cellLe l).nodup_iff.mpr hv

/-! ## Claim C7: characterisation of `known_mines` and `known_safes` -/

/-- Claim C7: `known_mines` returns all of the sentence's cells exactly when
`count = |cells|` and `count ≠ 0`, and the empty set otherwise; `known_safes`
returns all cells exactly when `count = 0`, and the empty set otherwise; in
particular a sentence with an empty cell set is never reported as all mines. -/
theorem claim_C7 (s : Sentence) :
    (((s.cells.card : ℤ) = s.count ∧ s.count ≠ 0) → s.known_mines = s.cells) ∧
    (¬((s.cells.card : ℤ) = s.count ∧ s.count ≠ 0) → s.known_mines = ∅) ∧
    (s.count = 0 → s.known_safes = s.cells) ∧
    (s.count ≠ 0 → s.known_safes = ∅) ∧
    (s.cells = ∅ → s.known_mines = ∅) := by
  refine ⟨fun h => ?_, fun h => ?_, fun h => ?_, fun h => ?_, fun h => ?_⟩
  · unfold Sentence.known_mines; rw [if_pos h]
  · unfold Sentence.known_mines; rw [if_neg h]
  · unfold Sentence.known_safes; rw [if_pos h]
  · unfold Sentence.known_safes; rw [if_neg (fun hc => h hc)]
  · unfold Sentence.known_mines
    rw [h]
    exact ite_self ∅

/-- Witness for C7 at concrete sentences. -/
theorem claim_C7_witness :
    (Sentence.mk {((0 : ℤ), (0 : ℤ))} 1).known_mines = {((0 : ℤ), (0 : ℤ))} ∧
    (Sentence.mk {((0 : ℤ), (0 : ℤ))} 1).known_safes = ∅ ∧
    (Sentence.mk (∅ : Finset Cell) 5).known_mines = ∅ :=
  ⟨(claim_C7 ⟨{((0 : ℤ), (0 : ℤ))}, 1⟩).1 (by decide),
   (claim_C7 ⟨{((0 : ℤ), (0 : ℤ))}, 1⟩).2.2.2.1 (by decide),
   (claim_C7 ⟨∅, 5⟩).2.2.2.2 rfl⟩

/-! ## Claim C2: propagation of marks is total -/

/-- Claim C2: immediately after `MinesweeperAI.mark_mine c` and immediately
after `MinesweeperAI.mark_safe c`, no sentence of the knowledge base contains
`c` in its cell set, for every cell and every prior state. -/
theorem claim_C2 (st : MinesweeperAI) (c : Cell) :
    (∀ s ∈ (st.mark_mine c).knowledge, c ∉ s.cells) ∧
    (∀ s ∈ (st.mark_safe c).knowledge, c ∉ s.cells) := by
  constructor
  · intro s hs
    simp only [MinesweeperAI.mark_mine, List.mem_map] at hs
    obtain ⟨t, -, rfl⟩ := hs
    by_cases h : c ∈ t.cells
    · simp [Sentence.mark_mine, h]
    · simp [Sentence.mark_mine, h]
  · intro s hs
    simp only [MinesweeperAI.mark_safe, List.mem_map] at hs
    obtain ⟨t, -, rfl⟩ := hs
    by_cases h : c ∈ t.cells
    · simp [Sentence.mark_safe, h]
    · simp [Sentence.mark_safe, h]

/-- Witness for C2: a two-cell knowledge base, marked at one of its cells. -/
theorem claim_C2_witness :
    ((0 : ℤ), (1 : ℤ)) ∉ (Sentence.mk (∅ : Finset Cell) 0).cells ∧
    ((0 : ℤ), (1 : ℤ)) ∉ (Sentence.mk (∅ : Finset Cell) 1).cells :=
  ⟨(claim_C2 ⟨2, 2, ∅, ∅, ∅, [⟨{((0 : ℤ), (1 : ℤ))}, 1⟩]⟩ ((0 : ℤ), (1 : ℤ))).1
      ⟨∅, 0⟩ (by decide),
   (claim_C2 ⟨2, 2, ∅, ∅, ∅, [⟨{((0 : ℤ), (1 : ℤ))}, 1⟩]⟩ ((0 : ℤ), (1 : ℤ))).2
      ⟨∅, 1⟩ (by decide)⟩

/-! ## Claim C1: the count invariant -/

/-- Counterexample to C1 as stated: after a sequence of `add_knowledge` and
`mark_safe` calls, the knowledge base holds a sentence with
`count > |cells|` (namely the empty-cell sentence with count 1). -/
theorem claim_C1_counterexample :
    ∃ s ∈ cexC1.knowledge, ¬(0 ≤ s.count ∧ s.count ≤ (s.cells.card : ℤ)) := by
  decide

/-- Claim C1 (amended): `Sentence.mark_mine` preserves `0 ≤ count ≤ |cells|`
provided `count ≥ 1` whenever the marked cell is actually in the sentence, and
`Sentence.mark_safe` preserves it provided `count < |cells|` whenever the
marked cell is in the sentence; unconditionally the operations need not
preserve the invariant. -/
theorem claim_C1 (s : Sentence) (c : Cell)
    (h0 : 0 ≤ s.count) (h1 : s.count ≤ (s.cells.card : ℤ)) :
    ((c ∈ s.cells → 1 ≤ s.count) →
      0 ≤ (s.mark_mine c).count ∧
        (s.mark_mine c).count ≤ ((s.mark_mine c).cells.card : ℤ)) ∧
    ((c ∈ s.cells → s.count + 1 ≤ (s.cells.card : ℤ)) →
      0 ≤ (s.mark_safe c).count ∧
        (s.mark_safe c).count ≤ ((s.mark_safe c).cells.card : ℤ)) := by
  constructor
  · intro hm
    by_cases h : c ∈ s.cells
    · have hpos : 1 ≤ s.cells.card := Finset.card_pos.mpr ⟨c, h⟩
      have hcz : ((s.cells.erase c).card : ℤ) = (s.cells.card : ℤ) - 1 := by
        rw [Finset.card_erase_of_mem h, Nat.cast_sub hpos, Nat.cast_one]
      have hge := hm h
      simp only [Sentence.mark_mine, if_pos h]
      exact ⟨by omega, by omega⟩
    · simp only [Sentence.mark_mine, if_neg h]
      exact ⟨h0, h1⟩
  · intro hm
    by_cases h : c ∈ s.cells
    · have hpos : 1 ≤ s.cells.card := Finset.card_pos.mpr ⟨c, h⟩
      have hcz : ((s.cells.erase c).card : ℤ) = (s.cells.card : ℤ) - 1 := by
        rw [Finset.card_erase_of_mem h, Nat.cast_sub hpos, Nat.cast_one]
      have hle := hm h
      simp only [Sentence.mark_safe, if_pos h]
      exact ⟨h0, by omega⟩
    · simp only [Sentence.mark_safe, if_neg h]
      exact ⟨h0, h1⟩

/-- Witness for C1 at a concrete two-cell count-1 sentence. -/
theorem claim_C1_witness :
    (0 ≤ (sC1w.mark_mine ((0 : ℤ), (0 : ℤ))).count ∧
      (sC1w.mark_mine ((0 : ℤ), (0 : ℤ))).count ≤
        ((sC1w.mark_mine ((0 : ℤ), (0 : ℤ))).cells.card : ℤ)) ∧
    (0 ≤ (sC1w.mark_safe ((0 : ℤ), (0 : ℤ))).count ∧
      (sC1w.mark_safe ((0 : ℤ), (0 : ℤ))).count ≤
        ((sC1w.mark_safe ((0 : ℤ), (0 : ℤ))).cells.card : ℤ)) := by
  have h := claim_C1 sC1w ((0 : ℤ), (0 : ℤ)) (by decide) (by decide)
  exact ⟨h.1 (by decide), h.2 (by decide)⟩

/-! ## Claim C9: the prune step -/

/-- Counterexample to C9 as stated: after `add_knowledge` returns, the
knowledge base retains a sentence with an empty cell set and non-zero count;
the prune step did not remove it and no fault is reported. -/
theorem claim_C9_counterexample :
    ∃ s ∈ cexC9.knowledge, s.cells = ∅ ∧ s.count ≠ 0 := by decide

/-- Claim C9 (amended): the prune step removes exactly the sentences
structurally equal to the empty sentence with count 0; an empty-cell sentence
with non-zero count is silently retained. -/
theorem claim_C9 (l : List Sentence) (s : Sentence) :
    s ∈ pruneKnowledge l ↔ s ∈ l ∧ ¬(s.cells = ∅ ∧ s.count = 0) := by
  have hiff : (s ≠ (⟨∅, 0⟩ : Sentence)) = ¬(s.cells = ∅ ∧ s.count = 0) := by
    cases s with
    | mk cs ct => simp [Sentence.mk.injEq]
  unfold pruneKnowledge
  rw [List.mem_filter, decide_eq_true_eq, hiff]

/-! ## Claim C10: `make_random_move` is deterministic -/

/-- Claim C10: `make_random_move` is a function of height, width, `moves_made`
and `mines` alone; two states agreeing on those fields produce the same
move. -/
theorem claim_C10 (s1 s2 : MinesweeperAI) (hh : s1.height = s2.height)
    (hw : s1.width = s2.width) (hm : s1.moves_made = s2.moves_made)
    (hn : s1.mines = s2.mines) :
    s1.make_random_move = s2.make_random_move := by
  unfold MinesweeperAI.make_random_move MinesweeperAI.eligibleMoves
  rw [hh, hw, hm, hn]

/-- Witness for C10: two states differing in `safes` and `knowledge` produce
the same move. -/
theorem claim_C10_witness :
    (MinesweeperAI.init 2 2).make_random_move =
      (⟨2, 2, ∅, ∅, {((0 : ℤ), (0 : ℤ))}, [⟨∅, 3⟩]⟩ :
        MinesweeperAI).make_random_move :=
  claim_C10 _ _ rfl rfl rfl rfl

/-! ## Claim C4: duplicate sentences -/

/-- Counterexample to C4 as stated: the observation sentence is appended with
no value-equality check, so after two observations with coinciding unresolved
neighbourhoods the knowledge base holds two structurally equal sentences. -/
theorem claim_C4_counterexample : cexC4.knowledge = [dupC4, dupC4] := by decide

/-- Claim C4 (amended): the subset-inference insertion path does check
value-equality before appending, so it preserves duplicate-freeness of the
knowledge list; the unchecked insertion is the observation-sentence append. -/
theorem claim_C4 (fuel : ℕ) (l : List Sentence) (i j : ℕ) (h : l.Nodup) :
    ((subsetLoop fuel l i j).1).Nodup := by
  induction fuel generalizing l i j with
  | zero => exact h
  | succ f ih =>
    unfold subsetLoop
    split
    · split
      · apply ih
        unfold subsetNext
        split
        · split
          · exact h
          · next hin =>
            rw [List.nodup_append]
            exact ⟨h, List.nodup_singleton _, by simpa using hin⟩
        · exact h
      · exact ih _ _ _ h
    · exact h

/-- Witness for C4 at a concrete duplicate-free list. -/
theorem claim_C4_witness :
    ((subsetLoop 20 [⟨{((0 : ℤ), (0 : ℤ))}, 1⟩] 0 0).1).Nodup :=
  claim_C4 20 [⟨{((0 : ℤ), (0 : ℤ))}, 1⟩] 0 0 (by decide)

/-! ## Claim C8: `make_random_move` -/

/-- Membership in the eligible-move list built by `make_random_move`. -/
theorem mem_eligibleMoves (st : MinesweeperAI) (c : Cell) :
    c ∈ st.eligibleMoves ↔
      (∃ i : ℕ, i < st.height ∧ ∃ j : ℕ, j < st.width ∧ c = ((i : ℤ), (j : ℤ))) ∧
        c ∉ st.moves_made ∧ c ∉ st.mines := by
  unfold MinesweeperAI.eligibleMoves
  rw [List.mem_flatMap]
  constructor
  · rintro ⟨i, hi, hc⟩
    rw [List.mem_range] at hi
    rw [List.mem_filterMap] at hc
    obtain ⟨j, hj, hcj⟩ := hc
    rw [List.mem_range] at hj
    by_cases hP : ((i : ℤ), (j : ℤ)) ∉ st.moves_made ∧ ((i : ℤ), (j : ℤ)) ∉ st.mines
    · rw [if_pos hP] at hcj
      obtain rfl := Option.some.inj hcj
      exact ⟨⟨i, hi, j, hj, rfl⟩, hP⟩
    · rw [if_neg hP] at hcj
      exact absurd hcj Option.noConfusion
  · rintro ⟨⟨i, hi, j, hj, rfl⟩, h1, h2⟩
    refine ⟨i, List.mem_range.mpr hi, ?_⟩
    rw [List.mem_filterMap]
    exact ⟨j, List.mem_range.mpr hj, by rw [if_pos ⟨h1, h2⟩]⟩

/-- Claim C8 (amended): `make_random_move` returns only cells of the grid
that are neither in `moves_made` nor in `mines`, and returns `none` exactly
when no such cell exists; the returned cell is an arbitrary deterministic
element of that set, not a uniformly random one. -/
theorem claim_C8 (st : MinesweeperAI) :
    (∀ c, st.make_random_move = some c →
      c ∉ st.moves_made ∧ c ∉ st.mines ∧
        0 ≤ c.1 ∧ c.1 < (st.height : ℤ) ∧ 0 ≤ c.2 ∧ c.2 < (st.width : ℤ)) ∧
    (st.make_random_move = none ↔
      ∀ i j : ℕ, i < st.height → j < st.width →
        (((i : ℤ), (j : ℤ)) ∈ st.moves_made ∨ ((i : ℤ), (j : ℤ)) ∈ st.mines)) := by
  constructor
  · intro c hc
    have hmem : c ∈ st.eligibleMoves :=
      List.mem_of_mem_head? (show c ∈ st.eligibleMoves.head? from hc)
    rcases (mem_eligibleMoves st c).mp hmem with ⟨⟨i, hi, j, hj, rfl⟩, h1, h2⟩
    refine ⟨h1, h2, ?_, ?_, ?_, ?_⟩
    · show (0 : ℤ) ≤ (i : ℤ)
      exact Int.natCast_nonneg i
    · show (i : ℤ) < (st.height : ℤ)
      exact_mod_cast hi
    · show (0 : ℤ) ≤ (j : ℤ)
      exact Int.natCast_nonneg j
    · show (j : ℤ) < (st.width : ℤ)
      exact_mod_cast hj
  · have hnil : st.make_random_move = none ↔ st.eligibleMoves = [] := by
      unfold MinesweeperAI.make_random_move
      cases st.eligibleMoves <;> simp
    rw [hnil, List.eq_nil_iff_forall_not_mem]
    constructor
    · intro h i j hi hj
      by_contra hcon
      push_neg at hcon
      exact h _ ((mem_eligibleMoves st _).mpr ⟨⟨i, hi, j, hj, rfl⟩, hcon.1, hcon.2⟩)
    · intro h c hmem
      rcases (mem_eligibleMoves st c).mp hmem with ⟨⟨i, hi, j, hj, rfl⟩, h1, h2⟩
      rcases h i j hi hj with h3 | h3
      · exact h1 h3
      · exact h2 h3

/-- Witness for C8 on a fresh 1×2 board, where the move is `(0,0)`. -/
theorem claim_C8_witness :
    ((0 : ℤ), (0 : ℤ)) ∉ (MinesweeperAI.init 1 2).moves_made ∧
    ((0 : ℤ), (0 : ℤ)) ∉ (MinesweeperAI.init 1 2).mines ∧
    0 ≤ (((0 : ℤ), (0 : ℤ)) : Cell).1 ∧
    (((0 : ℤ), (0 : ℤ)) : Cell).1 < ((MinesweeperAI.init 1 2).height : ℤ) ∧
    0 ≤ (((0 : ℤ), (0 : ℤ)) : Cell).2 ∧
    (((0 : ℤ), (0 : ℤ)) : Cell).2 < ((MinesweeperAI.init 1 2).width : ℤ) :=
  (claim_C8 (MinesweeperAI.init 1 2)).1 ((0 : ℤ), (0 : ℤ)) (by decide)

/-- Counterexample to C8 as stated: on a fresh 1×2 board both grid cells are
eligible (none played, none a known mine), yet `make_random_move` — a pure
function of the state that consumes no randomness — cannot return both, so
the choice is not uniform over the eligible set. -/
theorem claim_C8_counterexample :
    (((0 : ℤ), (0 : ℤ)) ∉ (MinesweeperAI.init 1 2).moves_made ∧
      ((0 : ℤ), (0 : ℤ)) ∉ (MinesweeperAI.init 1 2).mines) ∧
    (((0 : ℤ), (1 : ℤ)) ∉ (MinesweeperAI.init 1 2).moves_made ∧
      ((0 : ℤ), (1 : ℤ)) ∉ (MinesweeperAI.init 1 2).mines) ∧
    ((MinesweeperAI.init 1 2).make_random_move ≠ some ((0 : ℤ), (0 : ℤ)) ∨
      (MinesweeperAI.init 1 2).make_random_move ≠ some ((0 : ℤ), (1 : ℤ))) := by
  decide

/-! ## Claim C6: disjointness of `mines` and `safes` -/

/-- Counterexample to C6 as stated: after a `mark_safe` call followed by a
`mark_mine` call on the same cell, the cell is in both `mines` and `safes`. -/
theorem claim_C6_counterexample : cexC6.mines ∩ cexC6.safes ≠ ∅ := by decide

/-! ## Claim C5: the extraction step is a single pass, not a fixpoint -/

theorem markAllMines_mines_mono (l : List Cell) (st : MinesweeperAI) :
    st.mines ⊆ (st.markAllMines l).mines := by
  induction l generalizing st with
  | nil => exact Finset.Subset.refl _
  | cons a t ih =>
    exact fun c hc => ih (st.mark_mine a) (Finset.mem_insert_of_mem hc)

theorem markAllSafes_mines_eq (l : List Cell) (st : MinesweeperAI) :
    (st.markAllSafes l).mines = st.mines := by
  induction l generalizing st with
  | nil => rfl
  | cons a t ih => exact ih (st.mark_safe a)

theorem markAllSafes_safes_mono (l : List Cell) (st : MinesweeperAI) :
    st.safes ⊆ (st.markAllSafes l).safes := by
  induction l generalizing st with
  | nil => exact Finset.Subset.refl _
  | cons a t ih =>
    exact fun c hc => ih (st.mark_safe a) (Finset.mem_insert_of_mem hc)

theorem markAllMines_safes_eq (l : List Cell) (st : MinesweeperAI) :
    (st.markAllMines l).safes = st.safes := by
  induction l generalizing st with
  | nil => rfl
  | cons a t ih => exact ih (st.mark_mine a)

theorem markAllMines_covers (l : List Cell) (st : MinesweeperAI) :
    ∀ c ∈ l, c ∈ (st.markAllMines l).mines := by
  induction l generalizing st with
  | nil => intro c hc; cases hc
  | cons a t ih =>
    intro c hc
    rcases List.mem_cons.mp hc with rfl | hmem
    · exact markAllMines_mines_mono t (st.mark_mine c) (Finset.mem_insert_self c _)
    · exact ih (st.mark_mine a) c hmem

theorem markAllSafes_covers (l : List Cell) (st : MinesweeperAI) :
    ∀ c ∈ l, c ∈ (st.markAllSafes l).safes := by
  induction l generalizing st with
  | nil => intro c hc; cases hc
  | cons a t ih =>
    intro c hc
    rcases List.mem_cons.mp hc with rfl | hmem
    · exact markAllSafes_safes_mono t (st.mark_safe c) (Finset.mem_insert_self c _)
    · exact ih (st.mark_safe a) c hmem

theorem extractStep_mines_mono (st : MinesweeperAI) (s : Sentence) :
    st.mines ⊆ (extractStep st s).mines := by
  unfold extractStep
  split
  · exact markAllMines_mines_mono _ st
  · split
    · rw [markAllSafes_mines_eq]
    · exact Finset.Subset.refl _

theorem extractStep_safes_mono (st : MinesweeperAI) (s : Sentence) :
    st.safes ⊆ (extractStep st s).safes := by
  unfold extractStep
  split
  · rw [markAllMines_safes_eq]
  · split
    · exact markAllSafes_safes_mono _ st
    · exact Finset.Subset.refl _

theorem extractLoop_mines_mono (f : ℕ) (st : MinesweeperAI) (i : ℕ) :
    st.mines ⊆ (MinesweeperAI.extractLoop f st i).mines := by
  induction f generalizing st i with
  | zero => exact Finset.Subset.refl _
  | succ f ih =>
    unfold MinesweeperAI.extractLoop
    split
    · exact (extractStep_mines_mono st _).trans (ih _ _)
    · exact Finset.Subset.refl _

theorem extractLoop_safes_mono (f : ℕ) (st : MinesweeperAI) (i : ℕ) :
    st.safes ⊆ (MinesweeperAI.extractLoop f st i).safes := by
  induction f generalizing st i with
  | zero => exact Finset.Subset.refl _
  | succ f ih =>
    unfold MinesweeperAI.extractLoop
    split
    · exact (extractStep_safes_mono st _).trans (ih _ _)
    · exact Finset.Subset.refl _

/-- Counterexample to C5 as stated: when `add_knowledge` returns, a sentence
of the knowledge base still has a non-empty `known_mines` none of whose cells
has been marked — a further pass would produce new marks, so the extraction
step did not run to fixpoint. -/
theorem claim_C5_counterexample :
    ∃ s ∈ cexC5.knowledge, ∃ c ∈ s.known_mines, c ∉ cexC5.mines := by decide

/-- Claim C5 (amended): the conclusion-extraction step is exactly one pass
over the sentence list; when the loop reaches index `i`, the inspected
sentence's snapshot conclusions are marked knowledge-base-wide before the pass
moves on (and survive to the end of the pass), but the pass is not repeated,
so conclusions unlocked in earlier-inspected sentences by later marks are not
extracted in the same call. -/
theorem claim_C5 (f i : ℕ) (st : MinesweeperAI) (h : i < st.knowledge.length) :
    ((st.knowledge.get ⟨i, h⟩).known_mines ≠ ∅ →
      (st.knowledge.get ⟨i, h⟩).known_mines ⊆
        (MinesweeperAI.extractLoop (f + 1) st i).mines) ∧
    ((st.knowledge.get ⟨i, h⟩).known_mines = ∅ →
      (st.knowledge.get ⟨i, h⟩).known_safes ⊆
        (MinesweeperAI.extractLoop (f + 1) st i).safes) := by
  have hstep : MinesweeperAI.extractLoop (f + 1) st i =
      MinesweeperAI.extractLoop f
        (extractStep st (st.knowledge.get ⟨i, h⟩)) (i + 1) := by
    show (if h2 : i < st.knowledge.length then
        MinesweeperAI.extractLoop f
          (extractStep st (st.knowledge.get ⟨i, h2⟩)) (i + 1)
      else st) = _
    rw [dif_pos h]
  constructor
  · intro hne
    rw [hstep]
    intro c hc
    apply extractLoop_mines_mono
    unfold extractStep
    rw [if_pos hne]
    exact markAllMines_covers _ _ _ ((mem_sortedCells _ _).mpr hc)
  · intro hempty
    by_cases hsf : (st.knowledge.get ⟨i, h⟩).known_safes = ∅
    · rw [hsf]
      intro c hc
      exact absurd hc (Finset.not_mem_empty c)
    · rw [hstep]
      intro c hc
      apply extractLoop_safes_mono
      unfold extractStep
      rw [if_neg (not_not_intro hempty), if_pos hsf]
      exact markAllSafes_covers _ _ _ ((mem_sortedCells _ _).mpr hc)

/-- Witness for C5: the single sentence `{(0,1)} = 1` fires and its cell ends
up marked as a mine by the pass. -/
theorem claim_C5_witness :
    (Sentence.mk {((0 : ℤ), (1 : ℤ))} 1).known_mines ⊆
      (MinesweeperAI.extractLoop 1 stC5w 0).mines :=
  (claim_C5 0 0 stC5w (by decide)).1 (by decide)

/-! ## Claim C3: soundness and application of the subset rule -/

theorem inferred_sound (f : Cell → Bool) (a b : Sentence)
    (hsub : a.cells ⊆ b.cells) (ha : satisfiedBy f a) (hb : satisfiedBy f b) :
    satisfiedBy f (inferredSentence a b) := by
  unfold satisfiedBy at ha hb
  have hu : b.cells.filter (fun c => f c = true) =
      a.cells.filter (fun c => f c = true) ∪
        (b.cells \ a.cells).filter (fun c => f c = true) := by
    rw [← Finset.filter_union, Finset.union_sdiff_of_subset hsub]
  have hdisj : Disjoint (a.cells.filter (fun c => f c = true))
      ((b.cells \ a.cells).filter (fun c => f c = true)) :=
    Finset.disjoint_filter_filter Finset.disjoint_sdiff
  have hcard : (b.cells.filter (fun c => f c = true)).card =
      (a.cells.filter (fun c => f c = true)).card +
        ((b.cells \ a.cells).filter (fun c => f c = true)).card := by
    rw [hu, Finset.card_union_of_disjoint hdisj]
  have hz := congrArg (Nat.cast : ℕ → ℤ) hcard
  push_cast at hz
  show (((b.cells \ a.cells).filter (fun c => f c = true)).card : ℤ) =
    b.count - a.count
  omega

theorem subsetNext_grows (l : List Sentence) (a b : Sentence) :
    l <+: subsetNext l a b := by
  unfold subsetNext
  split
  · split
    · exact List.prefix_refl _
    · exact List.prefix_append _ _
  · exact List.prefix_refl _

theorem subsetLoop_grows (fuel : ℕ) (l : List Sentence) (i j : ℕ) :
    l <+: (subsetLoop fuel l i j).1 := by
  induction fuel generalizing l i j with
  | zero => exact List.prefix_refl _
  | succ f ih =>
    show l <+: (if hi : i < l.length then
        (if hj : j < l.length then
          subsetLoop f (subsetNext l (l.get ⟨i, hi⟩) (l.get ⟨j, hj⟩)) i (j + 1)
        else subsetLoop f l (i + 1) 0)
      else (l, true)).1
    split
    · split
      · exact (subsetNext_grows _ _ _).trans (ih _ _ _)
      · exact ih _ _ _
    · exact List.prefix_refl _

theorem get_of_grows (l l2 : List Sentence) (hp : l <+: l2) (ia : ℕ)
    (hia : ia < l.length) (hia2 : ia < l2.length) :
    l2.get ⟨ia, hia2⟩ = l.get ⟨ia, hia⟩ := by
  obtain ⟨t, rfl⟩ := hp
  exact List.get_append ia hia

theorem subsetLoop_processes (fuel : ℕ) :
    ∀ (l : List Sentence) (i j : ℕ) (lr : List Sentence),
      subsetLoop fuel l i j = (lr, true) →
      ∀ (ia jb : ℕ) (hia : ia < l.length) (hjb : jb < l.length),
        (i < ia ∨ (i = ia ∧ j ≤ jb)) →
        (l.get ⟨ia, hia⟩).cells ⊂ (l.get ⟨jb, hjb⟩).cells →
        inferredSentence (l.get ⟨ia, hia⟩) (l.get ⟨jb, hjb⟩) ∈ lr := by
  induction fuel with
  | zero =>
    intro l i j lr hrun
    exact absurd (congrArg Prod.snd hrun) Bool.false_ne_true
  | succ f ih =>
    intro l i j lr hrun ia jb hia hjb hcond hss
    have heq : subsetLoop (f + 1) l i j =
        (if hi : i < l.length then
          (if hj : j < l.length then
            subsetLoop f (subsetNext l (l.get ⟨i, hi⟩) (l.get ⟨j, hj⟩)) i (j + 1)
          else subsetLoop f l (i + 1) 0)
        else (l, true)) := rfl
    by_cases hi : i < l.length
    · by_cases hj : j < l.length
      · rw [heq, dif_pos hi, dif_pos hj] at hrun
        have hpre : l <+: subsetNext l (l.get ⟨i, hi⟩) (l.get ⟨j, hj⟩) :=
          subsetNext_grows _ _ _
        have hia2 : ia < (subsetNext l (l.get ⟨i, hi⟩) (l.get ⟨j, hj⟩)).length :=
          lt_of_lt_of_le hia hpre.length_le
        have hjb2 : jb < (subsetNext l (l.get ⟨i, hi⟩) (l.get ⟨j, hj⟩)).length :=
          lt_of_lt_of_le hjb hpre.length_le
        have hget_a := get_of_grows l _ hpre ia hia hia2
        have hget_b := get_of_grows l _ hpre jb hjb hjb2
        by_cases hpair : ia = i ∧ jb = j
        · obtain ⟨rfl, rfl⟩ := hpair
          have hmem2 : inferredSentence (l.get ⟨ia, hia⟩) (l.get ⟨jb, hjb⟩) ∈
              subsetNext l (l.get ⟨ia, hia⟩) (l.get ⟨jb, hjb⟩) := by
            unfold subsetNext
            rw [if_pos hss]
            split
            · next hin => exact hin
            · exact List.mem_append_right _ (List.mem_singleton_self _)
          have hplr := subsetLoop_grows f
            (subsetNext l (l.get ⟨ia, hia⟩) (l.get ⟨jb, hjb⟩)) ia (jb + 1)
          rw [show subsetNext l (l.get ⟨ia, hia⟩) (l.get ⟨jb, hjb⟩) =
              subsetNext l (l.get ⟨ia, hi⟩) (l.get ⟨jb, hj⟩) from rfl] at hplr hmem2
          rw [hrun] at hplr
          exact hplr.subset hmem2
        · have hcond2 : i < ia ∨ (i = ia ∧ j + 1 ≤ jb) := by
            rcases hcond with h1 | ⟨h1, h2⟩
            · exact Or.inl h1
            · by_cases hjbeq : jb = j
              · exact absurd ⟨h1.symm, hjbeq⟩ hpair
              · exact Or.inr ⟨h1, by omega⟩
          have hss2 : ((subsetNext l (l.get ⟨i, hi⟩) (l.get ⟨j, hj⟩)).get
                ⟨ia, hia2⟩).cells ⊂
              ((subsetNext l (l.get ⟨i, hi⟩) (l.get ⟨j, hj⟩)).get
                ⟨jb, hjb2⟩).cells := by
            rw [hget_a, hget_b]
            exact hss
          have hres := ih _ i (j + 1) lr hrun ia jb hia2 hjb2 hcond2 hss2
          rw [hget_a, hget_b] at hres
          exact hres
      · rw [heq, dif_pos hi, dif_neg hj] at hrun
        have hlt : i < ia := by
          have hle : l.length ≤ j := Nat.le_of_not_lt hj
          rcases hcond with h1 | ⟨h1, h2⟩
          · exact h1
          · omega
        have hcond2 : i + 1 < ia ∨ (i + 1 = ia ∧ 0 ≤ jb) := by omega
        exact ih l (i + 1) 0 lr hrun ia jb hia hjb hcond2 hss
    · rw [heq, dif_neg hi] at hrun
      have hle : l.length ≤ i := Nat.le_of_not_lt hi
      rcases hcond with h1 | ⟨h1, h2⟩ <;> omega

/-- Claim C3: (soundness) for sentences `a`, `b` with `a.cells` a strict
subset of `b.cells`, the inferred sentence `⟨b.cells − a.cells,
b.count − a.count⟩` is satisfied by every mine assignment satisfying both;
(application) whenever the subset-inference loop of `add_knowledge` runs to
completion, for every ordered pair of sentences present in the knowledge base
at its start whose cell sets are in strict inclusion, the inferred sentence is
in the resulting knowledge base — it is appended at the moment the pair is
examined unless a structurally equal sentence is already present. -/
theorem claim_C3 :
    (∀ (f : Cell → Bool) (a b : Sentence), a.cells ⊂ b.cells →
      satisfiedBy f a → satisfiedBy f b → satisfiedBy f (inferredSentence a b)) ∧
    (∀ (fuel : ℕ) (l lr : List Sentence), subsetLoop fuel l 0 0 = (lr, true) →
      ∀ a ∈ l, ∀ b ∈ l, a.cells ⊂ b.cells → inferredSentence a b ∈ lr) := by
  constructor
  · intro f a b hss ha hb
    exact inferred_sound f a b hss.subset ha hb
  · intro fuel l lr hrun a ha b hb hss
    obtain ⟨⟨ia, hia⟩, rfl⟩ := List.mem_iff_get.mp ha
    obtain ⟨⟨jb, hjb⟩, rfl⟩ := List.mem_iff_get.mp hb
    refine subsetLoop_processes fuel l 0 0 lr hrun ia jb hia hjb ?_ hss
    by_cases h0 : ia = 0
    · exact Or.inr ⟨h0.symm, Nat.zero_le _⟩
    · exact Or.inl (Nat.pos_of_ne_zero h0)

/-- Witness for C3: the inferred sentence `{(0,1)} = 0` is satisfied by the
assignment with the single mine `(0,0)`, and the loop run on `[aC3, bC3]`
appends it. -/
theorem claim_C3_witness :
    satisfiedBy fC3 (inferredSentence aC3 bC3) ∧ inferredSentence aC3 bC3 ∈ lrC3 :=
  ⟨claim_C3.1 fC3 aC3 bC3 (by decide) (by decide) (by decide),
   claim_C3.2 20 [aC3, bC3] lrC3 (by decide) aC3 (by decide) bC3 (by decide)
     (by decide)⟩

/-! ## Claim C6 (amended): disjointness under the caller contract -/

theorem mark_mine_cells_subset (s : Sentence) (c : Cell) :
    (s.mark_mine c).cells ⊆ s.cells := by
  unfold Sentence.mark_mine
  split
  · exact Finset.erase_subset c s.cells
  · exact Finset.Subset.refl _

theorem mark_safe_cells_subset (s : Sentence) (c : Cell) :
    (s.mark_safe c).cells ⊆ s.cells := by
  unfold Sentence.mark_safe
  split
  · exact Finset.erase_subset c s.cells
  · exact Finset.Subset.refl _

theorem ne_of_mem_mark_mine (s : Sentence) (c d : Cell)
    (hd : d ∈ (s.mark_mine c).cells) : d ≠ c := by
  unfold Sentence.mark_mine at hd
  by_cases h : c ∈ s.cells
  · rw [if_pos h] at hd
    exact (Finset.mem_erase.mp hd).1
  · rw [if_neg h] at hd
    exact fun hdc => h (hdc ▸ hd)

theorem ne_of_mem_mark_safe (s : Sentence) (c d : Cell)
    (hd : d ∈ (s.mark_safe c).cells) : d ≠ c := by
  unfold Sentence.mark_safe at hd
  by_cases h : c ∈ s.cells
  · rw [if_pos h] at hd
    exact (Finset.mem_erase.mp hd).1
  · rw [if_neg h] at hd
    exact fun hdc => h (hdc ▸ hd)

theorem inv_mark_mine (st : MinesweeperAI) (c : Cell) (hInv : KBInv st)
    (hc : c ∉ st.safes) : KBInv (st.mark_mine c) := by
  obtain ⟨hdisj, hcells⟩ := hInv
  constructor
  · show insert c st.mines ∩ st.safes = ∅
    rw [Finset.insert_inter_of_not_mem hc]
    exact hdisj
  · intro s hs d hd
    simp only [MinesweeperAI.mark_mine, List.mem_map] at hs
    obtain ⟨t, ht, rfl⟩ := hs
    have hne : d ≠ c := ne_of_mem_mark_mine t c d hd
    have h0 := hcells t ht d (mark_mine_cells_subset t c hd)
    refine ⟨?_, h0.2⟩
    show d ∉ insert c st.mines
    intro hmem
    rcases Finset.mem_insert.mp hmem with h | h
    · exact hne h
    · exact h0.1 h

theorem inv_mark_safe (st : MinesweeperAI) (c : Cell) (hInv : KBInv st)
    (hc : c ∉ st.mines) : KBInv (st.mark_safe c) := by
  obtain ⟨hdisj, hcells⟩ := hInv
  constructor
  · show st.mines ∩ insert c st.safes = ∅
    rw [Finset.inter_comm, Finset.insert_inter_of_not_mem hc, Finset.inter_comm]
    exact hdisj
  · intro s hs d hd
    simp only [MinesweeperAI.mark_safe, List.mem_map] at hs
    obtain ⟨t, ht, rfl⟩ := hs
    have hne : d ≠ c := ne_of_mem_mark_safe t c d hd
    have h0 := hcells t ht d (mark_safe_cells_subset t c hd)
    refine ⟨h0.1, ?_⟩
    show d ∉ insert c st.safes
    intro hmem
    rcases Finset.mem_insert.mp hmem with h | h
    · exact hne h
    · exact h0.2 h

theorem buildFold_cells (st : MinesweeperAI) (cell : Cell) (cands : List Cell)
    (acc : Finset Cell × ℤ)
    (hacc : ∀ c ∈ acc.1, c ∉ st.mines ∧ c ∉ st.safes) :
    ∀ c ∈ (cands.foldl (st.buildStep cell) acc).1,
      c ∉ st.mines ∧ c ∉ st.safes := by
  induction cands generalizing acc with
  | nil => exact hacc
  | cons d t ih =>
    apply ih
    intro c hc
    unfold MinesweeperAI.buildStep at hc
    by_cases h1 : d = cell
    · rw [if_pos h1] at hc
      exact hacc c hc
    · rw [if_neg h1] at hc
      by_cases h2 : st.inBounds d = true
      · rw [if_pos h2] at hc
        by_cases h3 : d ∈ st.mines
        · rw [if_pos h3] at hc
          exact hacc c hc
        · rw [if_neg h3] at hc
          by_cases h4 : d ∈ st.safes
          · rw [if_pos h4] at hc
            exact hacc c hc
          · rw [if_neg h4] at hc
            rcases Finset.mem_insert.mp hc with rfl | hc2
            · exact ⟨h3, h4⟩
            · exact hacc c hc2
      · rw [if_neg h2] at hc
        exact hacc c hc

theorem newSentence_cells (st : MinesweeperAI) (cell : Cell) (count : ℤ) :
    ∀ c ∈ (st.newSentence cell count).cells, c ∉ st.mines ∧ c ∉ st.safes := by
  intro c hc
  exact buildFold_cells st cell (nbhdCandidates cell) (∅, count)
    (fun c hc => absurd hc (Finset.not_mem_empty c)) c hc

theorem inv_appendNew (st : MinesweeperAI) (cell : Cell) (count : ℤ)
    (hInv : KBInv st) : KBInv (st.appendNew cell count) := by
  obtain ⟨hdisj, hcells⟩ := hInv
  refine ⟨hdisj, ?_⟩
  intro s hs c hc
  rcases List.mem_append.mp hs with h | h
  · exact hcells s h c hc
  · rw [List.mem_singleton.mp h] at hc
    exact newSentence_cells st cell count c hc

theorem markAllMines_inv (l : List Cell) (st : MinesweeperAI) (S : Sentence)
    (hInv : KBInv st) (hS : S ∈ st.knowledge) (hnd : l.Nodup)
    (hl : ∀ c ∈ l, c ∈ S.cells) : KBInv (st.markAllMines l) := by
  induction l generalizing st S with
  | nil => exact hInv
  | cons a t ih =>
    have haS : a ∈ S.cells := hl a (List.mem_cons_self a t)
    have hasafe : a ∉ st.safes := (hInv.2 S hS a haS).2
    have hInv2 : KBInv (st.mark_mine a) := inv_mark_mine st a hInv hasafe
    have hS2 : S.mark_mine a ∈ (st.mark_mine a).knowledge := by
      simp only [MinesweeperAI.mark_mine, List.mem_map]
      exact ⟨S, hS, rfl⟩
    have hnd2 := List.nodup_cons.mp hnd
    apply ih (st.mark_mine a) (S.mark_mine a) hInv2 hS2 hnd2.2
    intro c hc
    have hcS : c ∈ S.cells := hl c (List.mem_cons_of_mem a hc)
    have hca : c ≠ a := fun h => hnd2.1 (h ▸ hc)
    unfold Sentence.mark_mine
    rw [if_pos haS]
    exact Finset.mem_erase.mpr ⟨hca, hcS⟩

theorem markAllSafes_inv (l : List Cell) (st : MinesweeperAI) (S : Sentence)
    (hInv : KBInv st) (hS : S ∈ st.knowledge) (hnd : l.Nodup)
    (hl : ∀ c ∈ l, c ∈ S.cells) : KBInv (st.markAllSafes l) := by
  induction l generalizing st S with
  | nil => exact hInv
  | cons a t ih =>
    have haS : a ∈ S.cells := hl a (List.mem_cons_self a t)
    have hamine : a ∉ st.mines := (hInv.2 S hS a haS).1
    have hInv2 : KBInv (st.mark_safe a) := inv_mark_safe st a hInv hamine
    have hS2 : S.mark_safe a ∈ (st.mark_safe a).knowledge := by
      simp only [MinesweeperAI.mark_safe, List.mem_map]
      exact ⟨S, hS, rfl⟩
    have hnd2 := List.nodup_cons.mp hnd
    apply ih (st.mark_safe a) (S.mark_safe a) hInv2 hS2 hnd2.2
    intro c hc
    have hcS : c ∈ S.cells := hl c (List.mem_cons_of_mem a hc)
    have hca : c ≠ a := fun h => hnd2.1 (h ▸ hc)
    unfold Sentence.mark_safe
    rw [if_pos haS]
    exact Finset.mem_erase.mpr ⟨hca, hcS⟩

theorem known_mines_cases (s : Sentence) :
    s.known_mines = s.cells ∨ s.known_mines = ∅ := by
  unfold Sentence.known_mines
  split
  · exact Or.inl rfl
  · exact Or.inr rfl

theorem known_safes_cases (s : Sentence) :
    s.known_safes = s.cells ∨ s.known_safes = ∅ := by
  unfold Sentence.known_safes
  split
  · exact Or.inl rfl
  · exact Or.inr rfl

theorem inv_extractStep (st : MinesweeperAI) (s : Sentence) (hInv : KBInv st)
    (hs : s ∈ st.knowledge) : KBInv (extractStep st s) := by
  unfold extractStep
  split
  · next hne =>
    have hm : s.known_mines = s.cells := by
      rcases known_mines_cases s with h | h
      · exact h
      · exact absurd h hne
    refine markAllMines_inv _ st s hInv hs (nodup_sortedCells _) ?_
    intro c hc
    rw [mem_sortedCells, hm] at hc
    exact hc
  · split
    · next hne =>
      have hm : s.known_safes = s.cells := by
        rcases known_safes_cases s with h | h
        · exact h
        · exact absurd h hne
      refine markAllSafes_inv _ st s hInv hs (nodup_sortedCells _) ?_
      intro c hc
      rw [mem_sortedCells, hm] at hc
      exact hc
    · exact hInv

theorem inv_extractLoop (f : ℕ) (st : MinesweeperAI) (i : ℕ)
    (hInv : KBInv st) : KBInv (MinesweeperAI.extractLoop f st i) := by
  induction f generalizing st i with
  | zero => exact hInv
  | succ f ih =>
    show KBInv (if h : i < st.knowledge.length then
        MinesweeperAI.extractLoop f
          (extractStep st (st.knowledge.get ⟨i, h⟩)) (i + 1)
      else st)
    split
    · next h =>
      exact ih _ _ (inv_extractStep st _ hInv (st.knowledge.get_mem _ _))
    · exact hInv

theorem inv_pruneStep (st : MinesweeperAI) (hInv : KBInv st) :
    KBInv st.pruneStep := by
  obtain ⟨hdisj, hcells⟩ := hInv
  refine ⟨hdisj, ?_⟩
  intro s hs
  exact hcells s (List.mem_of_mem_filter hs)

theorem subsetNext_cellsP (P : Cell → Prop) (l : List Sentence)
    (a b : Sentence) (hl : ∀ s ∈ l, ∀ c ∈ s.cells, P c)
    (hb : ∀ c ∈ b.cells, P c) :
    ∀ s ∈ subsetNext l a b, ∀ c ∈ s.cells, P c := by
  unfold subsetNext
  split
  · split
    · exact hl
    · intro s hs
      rcases List.mem_append.mp hs with h | h
      · exact hl s h
      · rw [List.mem_singleton.mp h]
        intro c hc
        exact hb c (Finset.sdiff_subset hc)
  · exact hl

theorem subsetLoop_cellsP (P : Cell → Prop) (fuel : ℕ) :
    ∀ (l : List Sentence) (i j : ℕ), (∀ s ∈ l, ∀ c ∈ s.cells, P c) →
      ∀ s ∈ (subsetLoop fuel l i j).1, ∀ c ∈ s.cells, P c := by
  induction fuel with
  | zero => exact fun l i j hl => hl
  | succ f ih =>
    intro l i j hl
    show ∀ s ∈ (if hi : i < l.length then
        (if hj : j < l.length then
          subsetLoop f (subsetNext l (l.get ⟨i, hi⟩) (l.get ⟨j, hj⟩)) i (j + 1)
        else subsetLoop f l (i + 1) 0)
      else (l, true)).1, ∀ c ∈ s.cells, P c
    split
    · next hi =>
      split
      · next hj =>
        exact ih _ i (j + 1)
          (subsetNext_cellsP P l _ _ hl (hl _ (l.get_mem _ _)))
      · exact ih l (i + 1) 0 hl
    · exact hl

theorem inv_runSubset (fuel : ℕ) (st : MinesweeperAI) (hInv : KBInv st) :
    KBInv (MinesweeperAI.runSubset fuel st) := by
  obtain ⟨hdisj, hcells⟩ := hInv
  refine ⟨hdisj, ?_⟩
  exact subsetLoop_cellsP (fun c => c ∉ st.mines ∧ c ∉ st.safes) fuel
    st.knowledge 0 0 hcells

theorem inv_add_knowledge (st : MinesweeperAI) (fuel : ℕ) (cell : Cell)
    (count : ℤ) (hInv : KBInv st) (hcell : cell ∉ st.mines) :
    KBInv (st.add_knowledge fuel cell count) := by
  have h1 : KBInv (st.recordMove cell) := hInv
  have h2 : KBInv ((st.recordMove cell).mark_safe cell) :=
    inv_mark_safe _ cell h1 hcell
  have h3 := inv_appendNew _ cell count h2
  have h4 := inv_extractLoop
    ((((st.recordMove cell).mark_safe cell).appendNew cell count).knowledge.length)
    (((st.recordMove cell).mark_safe cell).appendNew cell count) 0 h3
  have h5 := inv_pruneStep _ h4
  exact inv_runSubset fuel _ h5

theorem reachable_inv (st : MinesweeperAI) (h : ReachableAI st) : KBInv st := by
  induction h with
  | init h w =>
    refine ⟨Finset.empty_inter _, ?_⟩
    intro s hs
    exact absurd hs (List.not_mem_nil s)
  | add st fuel cell count hr hcell ih =>
    exact inv_add_knowledge st fuel cell count ih hcell
  | mine st c hr hc ih => exact inv_mark_mine st c ih hc
  | safe st c hr hc ih => exact inv_mark_safe st c ih hc

/-- Claim C6 (amended): `mines ∩ safes = ∅` holds in every state reachable by
calls respecting the caller contract (never observing a known mine, never
marking a cell into both sets); the counterexample shows the contract is
needed. -/
theorem claim_C6 (st : MinesweeperAI) (h : ReachableAI st) :
    st.mines ∩ st.safes = ∅ :=
  (reachable_inv st h).1

/-- Witness for C6: the state after one contract-respecting `mark_safe` on a
fresh board. -/
theorem claim_C6_witness :
    ((MinesweeperAI.init 2 2).mark_safe ((0 : ℤ), (0 : ℤ))).mines ∩
      ((MinesweeperAI.init 2 2).mark_safe ((0 : ℤ), (0 : ℤ))).safes = ∅ :=
  claim_C6 _ (ReachableAI.safe _ _ (ReachableAI.init 2 2) (by decide))
